import Mathlib

/-!
Verification of the miniserve streaming-archive specification against the
repository. The HTTP entry point (`src/main.rs`) is embedded from the source;
the archive pipeline modules (`archive`, `pipe`, `listing`, `auth`) are not
present under `src/`, so those components are modelled from the spec text
(each such definition is marked `Modelled from the spec:`).

Bytes are modelled as natural numbers; paths and file contents as lists of
bytes.
-/

set_option maxRecDepth 10000

namespace Miniserve

/-- A byte of a path or of file content. -/
abbrev Byte := Nat

/-- Modelled from the spec: the kind field of a FileEntry
(`kind: File|Directory|Symlink`, section 3 DATA MODEL). -/
inductive EntryKind where
  | file
  | directory
  | symlink
  deriving DecidableEq, Repr

/-- Modelled from the spec: a FileEntry produced by PathCollector.
`segs` is the root-relative path as a list of path segments; `archivePath`
(the forward-slash normalized byte string of the data model) is derived from
it by `joinSegs` below.  `size` is the size taken from filesystem metadata
before the content is read; `content` stands for the bytes actually read for
the entry. -/
structure FileEntry where
  segs : List (List Byte)
  kind : EntryKind
  size : Nat
  content : List Byte
  deriving DecidableEq, Repr

/-- Modelled from the spec: the error taxonomy of sections 4.1, 4.2 and 7
(`RootUnreadable`, `WalkTooDeep`, `ArchiveError::SizeMismatch`, plus the
unsupported-format fatal-before-stream case). -/
inductive ArchiveError where
  | rootUnreadable
  | walkTooDeep
  | sizeMismatch
  | formatUnsupported
  deriving DecidableEq, Repr

/-- Modelled from the spec: a node of the directory tree under
`ArchiveRequest.root`.  A symlink carries the resolved target when the link
resolves (`none` models an unresolved/dangling link). -/
inductive FsNode where
  | file (name : List Byte) (content : List Byte)
  | dir (name : List Byte) (children : List FsNode)
  | symlink (name : List Byte) (target : Option FsNode)

namespace FsNode

/-- The name of a node, as listed in its parent directory. -/
def name : FsNode → List Byte
  | .file n _ => n
  | .dir n _ => n
  | .symlink n _ => n

/-- Replace the name of a node (used when a followed symlink contributes the
target's metadata and content under the link's own name). -/
def withName (nm : List Byte) : FsNode → FsNode
  | .file _ c => .file nm c
  | .dir _ cs => .dir nm cs
  | .symlink _ t => .symlink nm t

/-- Whether the node is a symlink. -/
def isSymlink : FsNode → Bool
  | .symlink _ _ => true
  | _ => false

end FsNode

/-- Byte-string comparison used to order directory entries: lexicographic on
the first difference, prefixes first. -/
def nameLe (a b : List Byte) : Bool :=
  match a, b with
  | [], _ => true
  | _ :: _, [] => false
  | x :: xs, y :: ys =>
    if x < y then true
    else if y < x then false
    else nameLe xs ys

/-- Modelled from the spec: PathCollector sorts each directory listing so the
walk is in a stable deterministic order (lexicographic by archivePath,
pre-order), section 4.1. -/
def sortChildren (cs : List FsNode) : List FsNode :=
  List.insertionSort (fun a b => nameLe a.name b.name = true) cs

/-- Sequence a per-node walk over a directory listing, concatenating the
entries of each child in order and propagating the first error. -/
def walkSeq (step : FsNode → Except ArchiveError (List FileEntry)) :
    List FsNode → Except ArchiveError (List FileEntry)
  | [] => .ok []
  | c :: rest => do
    let es ← step c
    let tail ← walkSeq step rest
    .ok (es ++ tail)

/-- Modelled from the spec: the PathCollector walk of section 4.1 at one node
(the `archive` module is absent from `src/`).  `fuel` is the remaining
recursion-depth budget (the walk "rejects traversal deeper than a fixed
sanity limit" with `WalkTooDeep`); `pfx` is the segment path of the enclosing
directory; `follow` is `ArchiveRequest.followSymlinks`.  A directory entry
precedes its contents (pre-order); a symlink is skipped entirely when
`follow` is false, and contributes the target under the link's name when
`follow` is true (an unresolved link is skipped as a recoverable per-entry
condition). -/
def walkNode (follow : Bool) : Nat → List (List Byte) → FsNode →
    Except ArchiveError (List FileEntry)
  | 0, _, _ => .error .walkTooDeep
  | _ + 1, pfx, .file n c => .ok [⟨pfx ++ [n], .file, c.length, c⟩]
  | f + 1, pfx, .dir n cs => do
    let sub ← walkSeq (fun c => walkNode follow f (pfx ++ [n]) c)
      (sortChildren cs)
    .ok (⟨pfx ++ [n], .directory, 0, []⟩ :: sub)
  | f + 1, pfx, .symlink n t =>
    if follow then
      match t with
      | some tgt => walkNode follow f pfx (tgt.withName n)
      | none => .ok []
    else .ok []

/-- The walk over one directory listing, children in sorted order. -/
def walkList (follow : Bool) (fuel : Nat) (pfx : List (List Byte))
    (l : List FsNode) : Except ArchiveError (List FileEntry) :=
  walkSeq (fun c => walkNode follow fuel pfx c) l

/-- Modelled from the spec: the whole walk of one ArchiveRequest.  The root
directory itself is the archive root: its children are walked with the empty
path prefix (entries are root-relative, section 3).  A root that cannot be
read is `none` and is the one fatal read error (`RootUnreadable`,
section 4.1). -/
def collectEntries (follow : Bool) (fuel : Nat) :
    Option FsNode → Except ArchiveError (List FileEntry)
  | none => .error .rootUnreadable
  | some root =>
    match root with
    | .dir _ cs => walkList follow fuel [] (sortChildren cs)
    | other => walkNode follow fuel [] other

/-- A valid directory-entry name: nonempty, without the `/` separator
(byte 47), and not the traversal segment `..` (bytes 46 46). -/
def validName (n : List Byte) : Bool :=
  !n.isEmpty && !n.contains 47 && n != [46, 46]

/-- Well-formedness of a tree down to the given depth: every name is a
`validName` and sibling names are distinct (as on a real filesystem). -/
def validTreeN : Nat → FsNode → Bool
  | 0, _ => false
  | _ + 1, .file n _ => validName n
  | f + 1, .dir n cs =>
    validName n && decide ((cs.map FsNode.name).Nodup) &&
      cs.all (fun c => validTreeN f c)
  | f + 1, .symlink n t =>
    validName n &&
      (match t with
       | some tgt => validTreeN f tgt
       | none => true)

/-- Well-formedness of a root directory listing. -/
def validListN (fuel : Nat) (cs : List FsNode) : Bool :=
  decide ((cs.map FsNode.name).Nodup) && cs.all (fun c => validTreeN fuel c)

def joinSegs : List (List Byte) → List Byte
  | [] => []
  | [s] => s
  | s :: rest => s ++ 47 :: joinSegs rest

def FileEntry.archivePath (e : FileEntry) : List Byte := joinSegs e.segs

def pathSegments : List Byte → List (List Byte)
  | [] => [[]]
  | b :: rest =>
    match pathSegments rest with
    | [] => [[]]
    | s :: ss => if b = 47 then [] :: s :: ss else (b :: s) :: ss

/-- A valid path segment: nonempty, without the separator, not `..`. -/
def validSeg (s : List Byte) : Prop :=
  s ≠ [] ∧ 47 ∉ s ∧ s ≠ [46, 46]

/-- The shape every entry produced below prefix `pfx` by walking a node named
`nm` has: its segment path extends `pfx` with `nm`, every added segment is
valid, and its recorded size equals its content length. -/
def entryShape (pfx : List (List Byte)) (nm : List Byte) (e : FileEntry) : Prop :=
  ∃ q, e.segs = pfx ++ nm :: q ∧ (∀ s ∈ nm :: q, validSeg s) ∧
    e.size = e.content.length

/-- Well-formedness of the walked root: for a directory root its listing,
otherwise the node itself. -/
def validRoot (fuel : Nat) : FsNode → Bool
  | .dir _ cs => validListN fuel cs
  | t => validTreeN fuel t

/-! ### ArchiveEncoder, tar variant (modelled from spec section 4.2) -/

/-- Big-endian ASCII octal rendering of `n` in exactly `w` digits. -/
def toOctal : Nat → Nat → List Byte
  | 0, _ => []
  | w + 1, n => toOctal w (n / 8) ++ [48 + n % 8]

/-- Read back an ASCII octal digit string. -/
def fromOctal (l : List Byte) : Nat :=
  l.foldl (fun acc b => acc * 8 + (b - 48)) 0

/-- Bytes of zero padding that align `n` bytes to the 512-byte block size. -/
def padLen (n : Nat) : Nat := (512 - n % 512) % 512

/-- The tar type-flag byte of an entry kind. -/
def typeFlagByte : EntryKind → Byte
  | .file => 48
  | .directory => 53
  | .symlink => 50

/-- Modelled from the spec: the fixed-size tar header record (name, mode,
size, mtime, type flag) padded to the 512-byte block size.  Mode and mtime
are fixed (metadata beyond the size is not modelled). -/
def tarHeader (path : List Byte) (kind : EntryKind) (size : Nat) : List Byte :=
  (path ++ List.replicate (100 - path.length) 0)
    ++ (toOctal 7 420 ++ [0])
    ++ (toOctal 11 size ++ [0])
    ++ (toOctal 11 0 ++ [0])
    ++ [typeFlagByte kind]
    ++ List.replicate 379 0

/-- Modelled from the spec: one tar entry — header block, then the raw bytes
padded to the block boundary; if the bytes actually read differ from the
declared size the encoder fails with `SizeMismatch` rather than producing a
corrupt archive. -/
def tarEntryBytes (e : FileEntry) : Except ArchiveError (List Byte) :=
  if e.content.length ≠ e.size then .error .sizeMismatch
  else .ok (tarHeader (FileEntry.archivePath e) e.kind e.size
    ++ (e.content ++ List.replicate (padLen e.size) 0))

/-- The concatenated entry records of a tar stream. -/
def tarEntriesBytes : List FileEntry → Except ArchiveError (List Byte)
  | [] => .ok []
  | e :: rest => do
    let b ← tarEntryBytes e
    let tail ← tarEntriesBytes rest
    .ok (b ++ tail)

/-- Modelled from the spec: the end-of-archive marker, two zero-filled
512-byte blocks. -/
def endOfArchive : List Byte := List.replicate 1024 0

/-- Modelled from the spec: the full tar stream — entry records terminated by
the end-of-archive marker. -/
def tarEncode (es : List FileEntry) : Except ArchiveError (List Byte) := do
  let body ← tarEntriesBytes es
  .ok (body ++ endOfArchive)

/-- An entry as an extraction tool recovers it from the archive: relative
path, kind, and content bytes (its size is the content length). -/
structure RawEntry where
  path : List Byte
  kind : EntryKind
  content : List Byte
  deriving DecidableEq, Repr

/-- The raw view of a walked entry. -/
def toRaw (e : FileEntry) : RawEntry :=
  ⟨FileEntry.archivePath e, e.kind, e.content⟩

/-- Recover an entry kind from a tar type-flag byte. -/
def kindOfByte (b : Byte) : Option EntryKind :=
  if b = 48 then some .file
  else if b = 53 then some .directory
  else if b = 50 then some .symlink
  else none

/-- Tar extraction: read entry records until the end-of-archive marker, which
must consist of exactly two zero blocks closing the stream.  `fuel` bounds
the number of records. -/
def tarDecodeLoop : Nat → List Byte → Option (List RawEntry)
  | 0, _ => none
  | fuel + 1, bs =>
    if bs.length < 512 then none
    else
      let hb := bs.take 512
      let rest := bs.drop 512
      if hb.all (fun b => b == 0) then
        if rest = List.replicate 512 0 then some [] else none
      else
        match kindOfByte ((hb.drop 132).headD 0) with
        | none => none
        | some kind =>
          let name := (hb.take 100).takeWhile (fun b => b != 0)
          let size := fromOctal ((hb.drop 108).take 11)
          if rest.length < size + padLen size then none
          else
            match tarDecodeLoop fuel (rest.drop (size + padLen size)) with
            | none => none
            | some es => some (⟨name, kind, rest.take size⟩ :: es)

/-- Tar extraction of a complete byte stream. -/
def tarDecode (bs : List Byte) : Option (List RawEntry) :=
  tarDecodeLoop (bs.length + 1) bs

/-! ### ArchiveEncoder, streaming-zip variant (modelled from spec
section 4.2): local headers with deferred sizes, data descriptors, and an
end-appended central directory. -/

/-- Little-endian rendering of `n` in exactly `w` bytes. -/
def leBytes : Nat → Nat → List Byte
  | 0, _ => []
  | w + 1, n => n % 256 :: leBytes w (n / 256)

/-- Read back a little-endian byte string. -/
def fromLe (l : List Byte) : Nat :=
  l.foldr (fun b acc => b + 256 * acc) 0

/-- One step of the bitwise CRC-32 shift (polynomial 0xEDB88320). -/
def crc32Step (c : Nat) : Nat :=
  if c % 2 = 1 then (c / 2) ^^^ 0xEDB88320 else c / 2

/-- CRC-32 of a byte string, computed incrementally byte by byte. -/
def crc32 (l : List Byte) : Nat :=
  (l.foldl (fun c b => crc32Step^[8] (c ^^^ b % 256)) 0xFFFFFFFF) ^^^ 0xFFFFFFFF

/-- A local file header with the sizes-deferred flag, followed by the stored
data, followed by the data descriptor carrying CRC-32, compressed size and
uncompressed size (stored, so both equal the content length). -/
def zipLocalEntry (name content : List Byte) : List Byte :=
  ([80, 75, 3, 4] ++ ([8, 0] ++ (leBytes 2 name.length ++ name)))
    ++ (content
    ++ ([80, 75, 7, 8] ++ (leBytes 4 (crc32 content)
      ++ (leBytes 4 content.length ++ leBytes 4 content.length))))

/-- A central-directory record: signature, kind flag, CRC-32, size, name
length, local-header offset, then the name. -/
def zipCentralRecord (name : List Byte) (kind : EntryKind)
    (content : List Byte) (offset : Nat) : List Byte :=
  [80, 75, 1, 2] ++ ([typeFlagByte kind] ++ (leBytes 4 (crc32 content)
    ++ (leBytes 4 content.length ++ (leBytes 2 name.length
    ++ (leBytes 4 offset ++ name)))))

/-- Lay out the local entries of `es` starting at `offset`, accumulating the
central-directory records (name + offsets + sizes only, not file bytes). -/
def zipBuild : Nat → List FileEntry → List Byte × List Byte
  | _, [] => ([], [])
  | offset, e :: rest =>
    let name := FileEntry.archivePath e
    let le := zipLocalEntry name e.content
    let (ls, cds) := zipBuild (offset + le.length) rest
    (le ++ ls, zipCentralRecord name e.kind e.content offset ++ cds)

/-- The end-of-central-directory record: signature, entry count, offset and
length of the central directory. -/
def zipEocd (count cdOff cdLen : Nat) : List Byte :=
  [80, 75, 5, 6] ++ (leBytes 2 count ++ (leBytes 4 cdOff ++ leBytes 4 cdLen))

/-- Modelled from the spec: the streaming-zip byte stream — all local
entries, then the central directory, then the end-of-central-directory
record. -/
def zipEncode (es : List FileEntry) : List Byte :=
  (zipBuild 0 es).1 ++ ((zipBuild 0 es).2
    ++ zipEocd es.length (zipBuild 0 es).1.length (zipBuild 0 es).2.length)

/-- Read the central-directory records, extracting each entry's content from
the full stream `bs` at its recorded offset. -/
def zipReadCentral : Nat → List Byte → List Byte → Option (List RawEntry)
  | 0, _, _ => none
  | _ + 1, _, [] => some []
  | f + 1, bs, cd =>
    if cd.take 4 = [80, 75, 1, 2] then
      let kb := (cd.drop 4).headD 0
      let size := fromLe ((cd.drop 9).take 4)
      let nlen := fromLe ((cd.drop 13).take 2)
      let off := fromLe ((cd.drop 15).take 4)
      let name := (cd.drop 19).take nlen
      match kindOfByte kb, zipReadCentral f bs (cd.drop (19 + nlen)) with
      | some k, some es =>
        some (⟨name, k, (bs.drop (off + 8 + nlen)).take size⟩ :: es)
      | _, _ => none
    else none

/-- Zip extraction: locate the end-of-central-directory record at the end of
the stream, then read the central directory it points to. -/
def zipDecode (bs : List Byte) : Option (List RawEntry) :=
  if bs.length < 14 then none
  else
    let eo := bs.drop (bs.length - 14)
    if eo.take 4 = [80, 75, 5, 6] then
      let cdOff := fromLe ((eo.drop 6).take 4)
      let cdLen := fromLe ((eo.drop 10).take 4)
      zipReadCentral (cdLen + 1) bs ((bs.drop cdOff).take cdLen)
    else none

/-- Modelled from the spec: the requested archive format
(`format: Tar|Zip`). -/
inductive ArchiveFormat where
  | tar
  | zip
  deriving DecidableEq, Repr

/-- Modelled from the spec: ArchiveEncoder — serialize the entry sequence
into the requested container format. -/
def generateArchive : ArchiveFormat → List FileEntry →
    Except ArchiveError (List Byte)
  | .tar, es => tarEncode es
  | .zip, es => .ok (zipEncode es)

/-- Extraction of either container format by an archive consumer. -/
def extractArchive : ArchiveFormat → List Byte → Option (List RawEntry)
  | .tar, bs => tarDecode bs
  | .zip, bs => zipDecode bs

/-! ### StreamBridge (modelled from spec sections 3 and 4.3) -/

/-- Modelled from the spec: the PipeState shared between producer and
consumer sides of the StreamBridge:
`{capacityBytes, bufferedBytes, closed, terminalError}`, plus the
cancellation flag of section 4.3. -/
structure PipeState where
  capacityBytes : Nat
  bufferedBytes : Nat
  closed : Bool
  cancelled : Bool
  terminalError : Option ArchiveError
  deriving DecidableEq, Repr

/-- An operation on the bridge; `send`/`receive` carry the byte size of the
chunk moved. -/
inductive PipeAction where
  | send (size : Nat)
  | receive (size : Nat)
  | closeNormal
  | fail (e : ArchiveError)
  | cancel
  deriving DecidableEq, Repr

/-- Modelled from the spec: one step of the StreamBridge.  `send` blocks
(is not enabled) unless the pipe is open and the chunk fits in the remaining
capacity; `receive` drains buffered bytes; the producer closes normally or
fails once, setting the terminal error; the consumer may cancel. -/
inductive PipeStep : PipeState → PipeAction → PipeState → Prop where
  | send (s : PipeState) (size : Nat)
      (hopen : s.closed = false)
      (hroom : s.bufferedBytes + size ≤ s.capacityBytes) :
      PipeStep s (.send size) { s with bufferedBytes := s.bufferedBytes + size }
  | receive (s : PipeState) (size : Nat)
      (havail : size ≤ s.bufferedBytes) :
      PipeStep s (.receive size)
        { s with bufferedBytes := s.bufferedBytes - size }
  | closeNormal (s : PipeState) :
      PipeStep s .closeNormal { s with closed := true }
  | fail (s : PipeState) (e : ArchiveError)
      (hnone : s.terminalError = none) :
      PipeStep s (.fail e) { s with terminalError := some e, closed := true }
  | cancel (s : PipeState) :
      PipeStep s .cancel { s with cancelled := true }

/-- A freshly created bridge of the given capacity. -/
def initPipe (cap : Nat) : PipeState := ⟨cap, 0, false, false, none⟩

/-- The states one request's bridge can reach from its fresh state. -/
inductive PipeReachable (cap : Nat) : PipeState → Prop where
  | init : PipeReachable cap (initPipe cap)
  | step {s : PipeState} {a : PipeAction} {t : PipeState} :
      PipeReachable cap s → PipeStep s a t → PipeReachable cap t

/-! ### ResponseStreamer error surfacing (modelled from spec sections 4.4,
6 and 7) -/

/-- What the HTTP layer does with a failed archive request. -/
inductive HttpOutcome where
  | status (code : Nat)
  | terminateConnection
  deriving DecidableEq, Repr

/-- Modelled from the spec: before any output byte is sent a fatal archive
error maps to a structured status (`RootUnreadable` to the 404/403 class,
`WalkTooDeep` to the 400 class); once streaming has begun the committed 200
status cannot change, so the connection is terminated instead. -/
def surfaceArchiveFailure (bytesSent : Nat) (e : ArchiveError) : HttpOutcome :=
  if bytesSent = 0 then
    match e with
    | .rootUnreadable => .status 404
    | .walkTooDeep => .status 400
    | .sizeMismatch => .status 500
    | .formatUnsupported => .status 400
  else .terminateConnection

/-- Modelled from the spec: one full archive generation run —
walk the tree, then encode the entries in the requested format
(section 6, `generateArchive`). -/
def archiveRequestRun (fmt : ArchiveFormat) (follow : Bool) (fuel : Nat)
    (root : Option FsNode) : Except ArchiveError (List Byte) :=
  match collectEntries follow fuel root with
  | .error e => .error e
  | .ok es => generateArchive fmt es

/-! ### The HTTP entry point, embedded from `src/main.rs` -/

/-- Opaque credentials of one `auth::RequiredAuth` entry (the `auth` module
is not under `src/`; only the list structure matters here). -/
abbrev RequiredAuth := Nat

/-- The fields of `MiniserveConfig` (src/main.rs:31) that the embedded
handlers read.  `pathIsFile` stands for `conf.path.is_file()`;
`defaultColorScheme` is an opaque theme identifier. -/
structure MsConfig where
  pathIsFile : Bool
  auth : List RequiredAuth
  randomRoute : Option String
  faviconRoute : String
  fileUpload : Bool
  index : Option String
  defaultColorScheme : Nat
  deriving DecidableEq, Repr

/-- A request as the embedded middleware sees it: whether basic-auth
credential verification has run on it. -/
structure Req where
  credentialsVerified : Bool
  deriving DecidableEq, Repr

/-- Embedded from `HttpAuthentication::basic(auth::handle_auth)` (src/main.rs:245):
verifies the request's credentials before it continues.  The `auth` module
is absent from `src/`, so verification itself is abstract; the middleware
marks the request as credential-checked. -/
def httpAuthenticationBasic (r : Req) : Req :=
  { r with credentialsVerified := true }

/-- Embedded from `middleware::Condition::new(cond, mw)` (src/main.rs:243): applies the
wrapped middleware if and only if the condition holds. -/
def conditionWrap {α : Type} (cond : Bool) (mw : α → α) (app : α) : α :=
  if cond then mw app else app

/-- The middleware stack of `run` (src/main.rs:243-246): basic
authentication under `Condition::new(!inside_config.auth.is_empty(), ...)`. -/
def appMiddleware (conf : MsConfig) : Req → Req :=
  conditionWrap (!conf.auth.isEmpty) httpAuthenticationBasic

/-- A route handler runs on the request only after the middleware stack has
transformed it. -/
def runApp (conf : MsConfig) (handler : Req → Nat) (r : Req) : Nat :=
  handler (appMiddleware conf r)

/-- The services `configure_app` can register on the Actix app
(src/main.rs:270-342). -/
inductive RegisteredService where
  | uploadResource (route : String)
  | filesIndex (route : String) (indexFile : String)
  | filesListing (route : String)
  | singleFile (route : String)
  deriving DecidableEq, Repr

/-- The `full_route` of `configure_app` (src/main.rs:273). -/
def fullRoute (conf : MsConfig) : String :=
  "/" ++ conf.randomRoute.getD ""

/-- The `upload_route` of `configure_app` (src/main.rs:286-290). -/
def uploadRoute (conf : MsConfig) : String :=
  match conf.randomRoute with
  | some r => "/" ++ r ++ "/upload"
  | none => "/upload"

/-- Embedded from `configure_app` (src/main.rs:270-342): the list of services it
registers, in registration order: a file path registers only the single-file
handler; otherwise a directory service (index or listing variant), preceded
by the upload resource when file upload is enabled. -/
def configure_app (conf : MsConfig) : List RegisteredService :=
  let serve_path : Option RegisteredService :=
    if conf.pathIsFile then none
    else
      match conf.index with
      | some indexFile => some (.filesIndex (fullRoute conf) indexFile)
      | none => some (.filesListing (fullRoute conf))
  match serve_path with
  | some sp =>
    if conf.fileUpload then [.uploadResource (uploadRoute conf), sp]
    else [sp]
  | none => [.singleFile (fullRoute conf)]

/-- An HTTP method as relevant to the embedded routing. -/
inductive HttpMethod where
  | get
  | post
  | other
  deriving DecidableEq, Repr

/-- An incoming request: method, path, and the query parameters
`listing::extract_query_parameters` reads (theme, sort, order as opaque
identifiers). -/
structure HttpReq where
  method : HttpMethod
  path : String
  queryTheme : Option Nat
  querySort : Option Nat
  queryOrder : Option Nat
  deriving DecidableEq, Repr

/-- The arguments `error_404` passes to `renderer::render_error`
(src/main.rs:355-368); the rendered page is this record. -/
structure ErrorPage where
  message : String
  statusCode : Nat
  returnPath : String
  sort : Option Nat
  order : Option Nat
  colorScheme : Nat
  defaultColorScheme : Nat
  hasReferer : Bool
  displayRoot : Bool
  faviconRoute : String
  deriving DecidableEq, Repr

/-- A produced response: status code plus the rendered error page. -/
structure HttpResponseM where
  status : Nat
  page : ErrorPage
  deriving DecidableEq, Repr

/-- Embedded from `error_404` (src/main.rs:344-370): a 404 response whose page uses the
color scheme from the request's query parameters, falling back to the
configured default scheme. -/
def error_404 (conf : MsConfig) (req : HttpReq) : HttpResponseM :=
  let color_scheme := req.queryTheme.getD conf.defaultColorScheme
  { status := 404,
    page :=
      { message := "The requested route does not exist: " ++ req.path,
        statusCode := 404,
        returnPath := "/",
        sort := req.querySort,
        order := req.queryOrder,
        colorScheme := color_scheme,
        defaultColorScheme := conf.defaultColorScheme,
        hasReferer := false,
        displayRoot := conf.randomRoute.isNone,
        faviconRoute := conf.faviconRoute } }

/-- Whether one registered service matches a request (Actix `Files` services
match by path prefix, resources by exact path; the upload resource only
routes POST). -/
def serviceMatches : RegisteredService → HttpReq → Bool
  | .uploadResource r, req => req.path == r && req.method == .post
  | .filesIndex r _, req => r.isPrefixOf req.path
  | .filesListing r, req => r.isPrefixOf req.path
  | .singleFile r, req => req.path == r

/-- Whether any route of the app built in `run` (src/main.rs:240-251)
matches: the favicon GET route, or a service of `configure_app`. -/
def routeMatches (conf : MsConfig) (req : HttpReq) : Bool :=
  (req.path == "/" ++ conf.faviconRoute && req.method == .get)
    || (configure_app conf).any (fun s => serviceMatches s req)

/-- The app's dispatch as far as the default service is concerned
(src/main.rs:250, `default_service(web::get().to(error_404))`): a request
matching no configured route is answered by `error_404` when it is a GET;
matched requests are handled by their own service (outside this model). -/
def dispatch (conf : MsConfig) (req : HttpReq) : Option HttpResponseM :=
  if routeMatches conf req then none
  else if req.method == .get then some (error_404 conf req)
  else none

/-! ### Generic `Except` bind lemmas -/

theorem ebind_ok {α β : Type} (a : α) (f : α → Except ArchiveError β) :
    (Except.ok a >>= f) = f a := rfl

theorem ebind_err {α β : Type} (e : ArchiveError) (f : α → Except ArchiveError β) :
    ((Except.error e : Except ArchiveError α) >>= f) = Except.error e := rfl

theorem bind_ok_id (x : Except ArchiveError (List FileEntry)) :
    (do let a ← x; Except.ok a) = x := by
  cases x <;> rfl

/-! ### C2: symlink policy of the walk -/

theorem walkNode_symlink_skip (f : Nat) (pfx : List (List Byte))
    (n : List Byte) (t : Option FsNode) :
    walkNode false (f + 1) pfx (.symlink n t) = .ok [] := by
  simp [walkNode]

theorem walkList_symlink_skip (f : Nat) (pfx : List (List Byte))
    (n : List Byte) (t : Option FsNode) (rest : List FsNode) :
    walkList false (f + 1) pfx (.symlink n t :: rest) =
      walkList false (f + 1) pfx rest := by
  simp [walkList, walkSeq, walkNode_symlink_skip, ebind_ok]
  exact bind_ok_id _

theorem walk_no_symlink_aux (fuel : Nat) :
    (∀ pfx t es, walkNode false fuel pfx t = .ok es →
      ∀ e ∈ es, e.kind ≠ .symlink)
    ∧ (∀ pfx l es, walkList false fuel pfx l = .ok es →
      ∀ e ∈ es, e.kind ≠ .symlink) := by
  induction fuel with
  | zero =>
    refine ⟨?_, ?_⟩
    · intro pfx t es h
      simp [walkNode] at h
    · intro pfx l
      cases l with
      | nil =>
        intro es h
        simp [walkList, walkSeq] at h
        subst h
        simp
      | cons c rest =>
        intro es h
        simp [walkList, walkSeq, walkNode, ebind_err] at h
  | succ f ih =>
    have hN : ∀ pfx t es, walkNode false (f + 1) pfx t = .ok es →
        ∀ e ∈ es, e.kind ≠ .symlink := by
      intro pfx t es h
      cases t with
      | file n c =>
        simp [walkNode] at h
        subst h
        simp
      | dir n cs =>
        rcases hw : walkSeq (fun c => walkNode false f (pfx ++ [n]) c)
            (sortChildren cs) with e | sub
        · simp [walkNode, hw, ebind_err] at h
        · simp [walkNode, hw, ebind_ok] at h
          subst h
          intro e he
          simp at he
          rcases he with he | he
          · simp [he]
          · exact ih.2 (pfx ++ [n]) (sortChildren cs) sub hw e he
      | symlink n t =>
        simp [walkNode] at h
        subst h
        simp
    refine ⟨hN, ?_⟩
    intro pfx l
    induction l with
    | nil =>
      intro es h
      simp [walkList, walkSeq] at h
      subst h
      simp
    | cons c rest ihl =>
      intro es h
      rcases hc : walkNode false (f + 1) pfx c with e | es₁
      · simp [walkList, walkSeq, hc, ebind_err] at h
      · rcases hr : walkSeq (fun c => walkNode false (f + 1) pfx c) rest
            with e | es₂
        · simp [walkList, walkSeq, hc, hr, ebind_ok, ebind_err] at h
        · simp [walkList, walkSeq, hc, hr, ebind_ok] at h
          subst h
          intro e he
          simp at he
          rcases he with he | he
          · exact hN pfx c es₁ hc e he
          · exact ihl es₂ hr e he

/-- C2: for every walk with followSymlinks false, a symlink is skipped
entirely — walking it yields no entries and no error, removing it from a
directory listing does not change the walk at all (it is neither followed
nor recorded), and no entry a walk records is a symlink entry. -/
theorem C2_symlink_skipped_entirely
    (fuel : Nat) (hf : 0 < fuel) (pfx : List (List Byte)) (n : List Byte)
    (t : Option FsNode) (rest : List FsNode) :
    walkNode false fuel pfx (.symlink n t) = .ok []
    ∧ walkList false fuel pfx (.symlink n t :: rest) =
        walkList false fuel pfx rest
    ∧ (∀ root es, collectEntries false fuel (some root) = .ok es →
        ∀ e ∈ es, e.kind ≠ .symlink) := by
  obtain ⟨f, rfl⟩ : ∃ f, fuel = f + 1 := ⟨fuel - 1, by omega⟩
  refine ⟨walkNode_symlink_skip f pfx n t,
    walkList_symlink_skip f pfx n t rest, ?_⟩
  intro root es h
  cases root with
  | file nm c => exact (walk_no_symlink_aux (f + 1)).1 [] _ es h
  | dir nm cs => exact (walk_no_symlink_aux (f + 1)).2 [] _ es h
  | symlink nm tg => exact (walk_no_symlink_aux (f + 1)).1 [] _ es h

/-- Witness for C2 at a concrete input. -/
theorem C2_symlink_skipped_entirely_witness :
    0 < 1
    ∧ (walkNode false 1 [] (.symlink [97] none) = .ok []
    ∧ walkList false 1 [] (.symlink [97] none :: []) = walkList false 1 [] []
    ∧ (∀ root es, collectEntries false 1 (some root) = .ok es →
        ∀ e ∈ es, e.kind ≠ .symlink)) :=
  ⟨by decide, C2_symlink_skipped_entirely 1 (by decide) [] [97] none []⟩

theorem pathSegments_ne_nil (l : List Byte) : pathSegments l ≠ [] := by
  cases l with
  | nil => simp [pathSegments]
  | cons b rest =>
    simp only [pathSegments]
    rcases h : pathSegments rest with _ | ⟨s, ss⟩
    · simp
    · by_cases hb : b = 47 <;> simp [hb]

theorem pathSegments_append_no47 (s l : List Byte) (hs : 47 ∉ s) :
    ∀ t ts, pathSegments l = t :: ts →
      pathSegments (s ++ l) = (s ++ t) :: ts := by
  induction s with
  | nil => intro t ts h; simpa using h
  | cons b bs ih =>
    intro t ts h
    have hb : b ≠ 47 := by intro hb; exact hs (by simp [hb])
    have hbs : 47 ∉ bs := fun hm => hs (by simp [hm])
    have hr := ih hbs t ts h
    simp only [List.cons_append, pathSegments, List.append_eq, hr, hb, if_false]

theorem pathSegments_joinSegs :
    ∀ segs : List (List Byte), segs ≠ [] → (∀ s ∈ segs, 47 ∉ s) →
      pathSegments (joinSegs segs) = segs := by
  intro segs
  induction segs with
  | nil => intro h; exact absurd rfl h
  | cons s rest ih =>
    intro _ hv
    cases rest with
    | nil =>
      have h0 : pathSegments ([] : List Byte) = [] :: [] := rfl
      have := pathSegments_append_no47 s [] (hv s (by simp)) [] [] h0
      simpa [joinSegs] using this
    | cons r rs =>
      have hrest : pathSegments (joinSegs (r :: rs)) = r :: rs :=
        ih (by simp) (fun x hx => hv x (by simp [hx]))
      have h47 : pathSegments (47 :: joinSegs (r :: rs)) = [] :: r :: rs := by
        simp only [pathSegments, hrest]
        simp
      have := pathSegments_append_no47 s (47 :: joinSegs (r :: rs))
        (hv s (by simp)) [] (r :: rs) h47
      simpa [joinSegs] using this

theorem validName_iff (n : List Byte) : validName n = true ↔ validSeg n := by
  simp [validName, validSeg, List.isEmpty_iff, and_assoc]

theorem validTreeN_withName (f : Nat) (n : List Byte) (t : FsNode)
    (hn : validName n = true) (ht : validTreeN f t = true) :
    validTreeN f (t.withName n) = true := by
  cases f with
  | zero => simp [validTreeN] at ht
  | succ f =>
    cases t with
    | file nm c => simpa [FsNode.withName, validTreeN] using hn
    | dir nm cs =>
      simp [validTreeN] at ht
      simp [FsNode.withName, validTreeN, hn]
      exact ⟨ht.1.2, ht.2⟩
    | symlink nm tg =>
      cases tg with
      | none => simp [FsNode.withName, validTreeN, hn]
      | some tgt =>
        simp [validTreeN] at ht
        simp [FsNode.withName, validTreeN, hn, ht.2]

theorem sortChildren_perm (cs : List FsNode) : List.Perm (sortChildren cs) cs :=
  List.perm_insertionSort _ cs

theorem segs_ne_of_head_ne {pfx : List (List Byte)} {a b : List Byte}
    {q₁ q₂ : List (List Byte)} (h : a ≠ b) :
    pfx ++ a :: q₁ ≠ pfx ++ b :: q₂ := by
  intro he
  have h2 := List.append_cancel_left he
  simp only [List.cons.injEq] at h2
  exact h h2.1

theorem name_withName (n : List Byte) (t : FsNode) : (t.withName n).name = n := by
  cases t <;> rfl

theorem walk_shape_aux (follow : Bool) (fuel : Nat) :
    (∀ pfx t es, validTreeN fuel t = true →
      walkNode follow fuel pfx t = .ok es →
      (∀ e ∈ es, entryShape pfx t.name e)
      ∧ (es.map FileEntry.segs).Pairwise (· ≠ ·))
    ∧ (∀ pfx l es, (∀ c ∈ l, validTreeN fuel c = true) →
      (l.map FsNode.name).Nodup →
      walkList follow fuel pfx l = .ok es →
      (∀ e ∈ es, ∃ c ∈ l, entryShape pfx c.name e)
      ∧ (es.map FileEntry.segs).Pairwise (· ≠ ·)) := by
  induction fuel with
  | zero =>
    refine ⟨?_, ?_⟩
    · intro pfx t es hv _h
      simp [validTreeN] at hv
    · intro pfx l es hv hn h
      cases l with
      | nil =>
        simp [walkList, walkSeq] at h
        subst h
        simp
      | cons c rest => exact absurd (hv c (by simp)) (by simp [validTreeN])
  | succ f ih =>
    have hN : ∀ pfx t es, validTreeN (f + 1) t = true →
        walkNode follow (f + 1) pfx t = .ok es →
        (∀ e ∈ es, entryShape pfx t.name e)
        ∧ (es.map FileEntry.segs).Pairwise (· ≠ ·) := by
      intro pfx t es hv h
      cases t with
      | file n c =>
        simp [walkNode] at h
        subst h
        simp [validTreeN] at hv
        refine ⟨?_, by simp⟩
        intro e he
        simp at he
        subst he
        exact ⟨[], by simp [FsNode.name], by simpa using (validName_iff n).1 hv, rfl⟩
      | dir n cs =>
        simp [validTreeN] at hv
        obtain ⟨⟨hnm, hnodup⟩, hall⟩ := hv
        rcases hw : walkSeq (fun c => walkNode follow f (pfx ++ [n]) c)
            (sortChildren cs) with err | sub
        · simp [walkNode, hw, ebind_err] at h
        · simp [walkNode, hw, ebind_ok] at h
          subst h
          have hperm := sortChildren_perm cs
          have hvall : ∀ c ∈ sortChildren cs, validTreeN f c = true :=
            fun c hc => hall c (hperm.mem_iff.1 hc)
          have hnodup2 : ((sortChildren cs).map FsNode.name).Nodup :=
            ((hperm.map FsNode.name).nodup_iff).2 hnodup
          obtain ⟨hshape, hpw⟩ :=
            ih.2 (pfx ++ [n]) (sortChildren cs) sub hvall hnodup2 hw
          constructor
          · intro e he
            simp at he
            rcases he with he | he
            · subst he
              exact ⟨[], by simp [FsNode.name],
                by simpa using (validName_iff n).1 hnm, rfl⟩
            · obtain ⟨c, _hc, q, hq, hvq, hsz⟩ := hshape e he
              refine ⟨c.name :: q, ?_, ?_, hsz⟩
              · simp [hq, FsNode.name]
              · intro s hs
                simp at hs
                rcases hs with hs | hs
                · rw [hs]
                  exact (validName_iff n).1 hnm
                · exact hvq s (by simpa using hs)
          · simp only [List.map_cons, List.pairwise_cons]
            refine ⟨?_, hpw⟩
            intro b hb
            obtain ⟨e, he, rfl⟩ := List.mem_map.1 hb
            obtain ⟨c, _hc, q, hq, _hvq, _hsz⟩ := hshape e he
            rw [hq]
            intro heq
            have hlen := congrArg List.length heq
            simp at hlen
      | symlink n tg =>
        cases follow with
        | false =>
          simp [walkNode] at h
          subst h
          simp
        | true =>
          cases tg with
          | none =>
            simp [walkNode] at h
            subst h
            simp
          | some tgt =>
            simp [validTreeN] at hv
            simp only [walkNode] at h
            have hv2 : validTreeN f (tgt.withName n) = true :=
              validTreeN_withName f n tgt hv.1 hv.2
            have hres := ih.1 pfx (tgt.withName n) es hv2 (by simpa using h)
            rw [name_withName] at hres
            simpa [FsNode.name] using hres
    refine ⟨hN, ?_⟩
    intro pfx l
    induction l with
    | nil =>
      intro es hv hn h
      simp [walkList, walkSeq] at h
      subst h
      simp
    | cons c rest ihl =>
      intro es hv hn h
      rcases hc : walkNode follow (f + 1) pfx c with err | es₁
      · simp [walkList, walkSeq, hc, ebind_err] at h
      · rcases hr : walkSeq (fun x => walkNode follow (f + 1) pfx x) rest
            with err | es₂
        · simp [walkList, walkSeq, hc, hr, ebind_ok, ebind_err] at h
        · simp [walkList, walkSeq, hc, hr, ebind_ok] at h
          subst h
          obtain ⟨hs₁, hp₁⟩ := hN pfx c es₁ (hv c (by simp)) hc
          have hvr : ∀ x ∈ rest, validTreeN (f + 1) x = true :=
            fun x hx => hv x (by simp [hx])
          simp only [List.map_cons, List.nodup_cons] at hn
          obtain ⟨hs₂, hp₂⟩ := ihl es₂ hvr hn.2 hr
          constructor
          · intro e he
            rcases List.mem_append.1 he with he | he
            · exact ⟨c, by simp, hs₁ e he⟩
            · obtain ⟨c2, hc2, hsh⟩ := hs₂ e he
              exact ⟨c2, by simp [hc2], hsh⟩
          · rw [List.map_append]
            refine List.pairwise_append.2 ⟨hp₁, hp₂, ?_⟩
            intro a ha b hb
            obtain ⟨e₁, he₁, rfl⟩ := List.mem_map.1 ha
            obtain ⟨e₂, he₂, rfl⟩ := List.mem_map.1 hb
            obtain ⟨q₁, hq₁, _, _⟩ := hs₁ e₁ he₁
            obtain ⟨c2, hc2, q₂, hq₂, _, _⟩ := hs₂ e₂ he₂
            have hne : c.name ≠ c2.name := by
              intro hx
              exact hn.1 (hx ▸ List.mem_map_of_mem FsNode.name hc2)
            rw [hq₁, hq₂]
            exact segs_ne_of_head_ne hne

theorem joinSegs_cons (s : List Byte) (rest : List (List Byte)) :
    ∃ r, joinSegs (s :: rest) = s ++ r := by
  cases rest with
  | nil => exact ⟨[], by simp [joinSegs]⟩
  | cons r rs => exact ⟨47 :: joinSegs (r :: rs), rfl⟩

theorem entries_path_ok (es : List FileEntry)
    (hsh : ∀ e ∈ es, ∃ nm q, e.segs = nm :: q ∧ (∀ s ∈ nm :: q, validSeg s))
    (hpw : (es.map FileEntry.segs).Pairwise (· ≠ ·)) :
    (∀ e ∈ es, (FileEntry.archivePath e).head? ≠ some 47
      ∧ [46, 46] ∉ pathSegments (FileEntry.archivePath e))
    ∧ (es.map FileEntry.archivePath).Nodup := by
  have hsplit : ∀ e ∈ es, pathSegments (FileEntry.archivePath e) = e.segs := by
    intro e he
    obtain ⟨nm, q, hq, hv⟩ := hsh e he
    rw [FileEntry.archivePath, hq]
    exact pathSegments_joinSegs (nm :: q) (by simp)
      (fun s hs => (hv s hs).2.1)
  constructor
  · intro e he
    obtain ⟨nm, q, hq, hv⟩ := hsh e he
    constructor
    · obtain ⟨b, bs, hb⟩ : ∃ b bs, nm = b :: bs := by
        rcases hnm : nm with _ | ⟨b, bs⟩
        · exact absurd (hnm ▸ (hv nm (by simp)).1) (by simp [hnm])
        · exact ⟨b, bs, rfl⟩
      obtain ⟨r, hr⟩ := joinSegs_cons nm q
      have hb47 : b ≠ 47 := by
        intro hbe
        exact (hv nm (by simp)).2.1 (by simp [hb, hbe])
      simp only [FileEntry.archivePath]
      rw [hq, hr, hb]
      simp [hb47]
    · rw [hsplit e he, hq]
      intro hmem
      exact (hv [46, 46] hmem).2.2 rfl
  · have h1 := List.pairwise_map.1 hpw
    refine List.pairwise_map.2 (List.Pairwise.imp_of_mem ?_ h1)
    intro e₁ e₂ h₁ h₂ hne heq
    exact hne (by rw [← hsplit e₁ h₁, ← hsplit e₂ h₂, heq])

/-- C3: every FileEntry a walk produces has an archivePath that does not
begin with a slash and contains no `..` segment, and the archivePaths of one
request are pairwise distinct. -/
theorem C3_archivePath_invariants (follow : Bool) (fuel : Nat) (root : FsNode)
    (es : List FileEntry) (hv : validRoot fuel root = true)
    (h : collectEntries follow fuel (some root) = .ok es) :
    (∀ e ∈ es, (FileEntry.archivePath e).head? ≠ some 47
      ∧ [46, 46] ∉ pathSegments (FileEntry.archivePath e))
    ∧ (es.map FileEntry.archivePath).Nodup := by
  have hmaster :
      (∀ e ∈ es, ∃ nm q, e.segs = nm :: q ∧ (∀ s ∈ nm :: q, validSeg s))
      ∧ (es.map FileEntry.segs).Pairwise (· ≠ ·) := by
    cases root with
    | dir nm cs =>
      simp [validRoot, validListN] at hv
      have hperm := sortChildren_perm cs
      have hvall : ∀ c ∈ sortChildren cs, validTreeN fuel c = true :=
        fun c hc => hv.2 c (hperm.mem_iff.1 hc)
      have hnodup : ((sortChildren cs).map FsNode.name).Nodup :=
        ((hperm.map FsNode.name).nodup_iff).2 hv.1
      obtain ⟨hsh, hpw⟩ := (walk_shape_aux follow fuel).2 [] (sortChildren cs)
        es hvall hnodup h
      refine ⟨?_, hpw⟩
      intro e he
      obtain ⟨c, _hc, q, hq, hvq, _⟩ := hsh e he
      exact ⟨c.name, q, by simpa using hq, hvq⟩
    | file nm c =>
      obtain ⟨hsh, hpw⟩ := (walk_shape_aux follow fuel).1 [] (.file nm c)
        es (by simpa [validRoot] using hv) h
      refine ⟨?_, hpw⟩
      intro e he
      obtain ⟨q, hq, hvq, _⟩ := hsh e he
      exact ⟨(FsNode.file nm c).name, q, by simpa using hq, hvq⟩
    | symlink nm tg =>
      obtain ⟨hsh, hpw⟩ := (walk_shape_aux follow fuel).1 [] (.symlink nm tg)
        es (by simpa [validRoot] using hv) h
      refine ⟨?_, hpw⟩
      intro e he
      obtain ⟨q, hq, hvq, _⟩ := hsh e he
      exact ⟨(FsNode.symlink nm tg).name, q, by simpa using hq, hvq⟩
  exact entries_path_ok es hmaster.1 hmaster.2

/-- Witness for C3 at a concrete two-level tree. -/
theorem C3_archivePath_invariants_witness :
    validRoot 3 (.dir [114] [.file [98] [7], .dir [97] [.file [99] [1, 2]]])
        = true
    ∧ ((∀ e ∈ [(⟨[[97]], .directory, 0, []⟩ : FileEntry),
          ⟨[[97], [99]], .file, 2, [1, 2]⟩, ⟨[[98]], .file, 1, [7]⟩],
        (FileEntry.archivePath e).head? ≠ some 47
          ∧ [46, 46] ∉ pathSegments (FileEntry.archivePath e))
      ∧ (([(⟨[[97]], .directory, 0, []⟩ : FileEntry),
          ⟨[[97], [99]], .file, 2, [1, 2]⟩,
          ⟨[[98]], .file, 1, [7]⟩].map FileEntry.archivePath)).Nodup) :=
  ⟨by decide,
    C3_archivePath_invariants false 3
      (.dir [114] [.file [98] [7], .dir [97] [.file [99] [1, 2]]])
      _ (by decide) (by rfl)⟩

theorem toOctal_length (w n : Nat) : (toOctal w n).length = w := by
  induction w generalizing n with
  | zero => rfl
  | succ w ih => simp [toOctal, ih]

theorem fromOctal_toOctal (w n : Nat) (h : n < 8 ^ w) :
    fromOctal (toOctal w n) = n := by
  induction w generalizing n with
  | zero =>
    interval_cases n
    rfl
  | succ w ih =>
    have hdiv : n / 8 < 8 ^ w := by
      rw [Nat.div_lt_iff_lt_mul (by norm_num)]
      calc n < 8 ^ (w + 1) := h
      _ = 8 ^ w * 8 := by ring
    simp only [toOctal, fromOctal, List.foldl_append, List.foldl_cons,
      List.foldl_nil]
    have hrec : List.foldl (fun acc b => acc * 8 + (b - 48)) 0 (toOctal w (n / 8))
        = n / 8 := ih (n / 8) hdiv
    rw [hrec]
    omega

theorem tarHeader_length (p : List Byte) (k : EntryKind) (s : Nat)
    (hp : p.length ≤ 100) : (tarHeader p k s).length = 512 := by
  simp [tarHeader, toOctal_length]
  omega

theorem takeWhile_append_zeros (p : List Byte) (h0 : 0 ∉ p) (k : Nat) :
    (p ++ List.replicate k 0).takeWhile (fun b => b != 0) = p := by
  induction p with
  | nil =>
    cases k with
    | zero => rfl
    | succ m => simp [List.replicate_succ, List.takeWhile]
  | cons a as ih =>
    have ha : a ≠ 0 := fun h => h0 (by simp [h])
    have has : 0 ∉ as := fun h => h0 (by simp [h])
    have hb : (a != 0) = true := by simpa using ha
    simp [List.takeWhile, hb, ih has]

theorem tarHeader_not_all_zero (p : List Byte) (k : EntryKind) (s : Nat) :
    (tarHeader p k s).all (fun b => b == 0) = false := by
  have hmem : typeFlagByte k ∈ tarHeader p k s := by simp [tarHeader]
  cases hall : (tarHeader p k s).all (fun b => b == 0) with
  | false => rfl
  | true =>
    have := List.all_eq_true.1 hall _ hmem
    cases k <;> simp [typeFlagByte] at this

theorem tarDecodeLoop_end (fuel : Nat) :
    tarDecodeLoop (fuel + 1) endOfArchive = some [] := by
  have h1 : (endOfArchive).length = 1024 := by simp [endOfArchive]
  have h2 : (endOfArchive).take 512 = List.replicate 512 0 := by
    simp [endOfArchive, List.take_replicate]
  have h3 : (endOfArchive).drop 512 = List.replicate 512 0 := by
    simp [endOfArchive, List.drop_replicate]
  have h4 : (List.replicate 512 (0 : Byte)).all (fun b => b == 0) = true := by
    simp [List.all_eq_true, List.mem_replicate]
  simp [tarDecodeLoop, h1, h2, h3, h4]

theorem kindOfByte_typeFlag (k : EntryKind) :
    kindOfByte (typeFlagByte k) = some k := by
  cases k <;> rfl

theorem tarHeader_grouped (p : List Byte) (k : EntryKind) (s : Nat) :
    tarHeader p k s =
      ((p ++ List.replicate (100 - p.length) 0) ++ (toOctal 7 420 ++ [0]))
      ++ (toOctal 11 s ++ ([0] ++ ((toOctal 11 0 ++ [0])
      ++ ([typeFlagByte k] ++ List.replicate 379 0)))) := by
  simp [tarHeader]

theorem tarHeader_drop108 (p : List Byte) (k : EntryKind) (s : Nat)
    (hp : p.length ≤ 100) :
    ((tarHeader p k s).drop 108).take 11 = toOctal 11 s := by
  rw [tarHeader_grouped]
  rw [List.drop_left' (by simp [toOctal_length]; omega)]
  exact List.take_left' (toOctal_length 11 s)

theorem tarHeader_drop132 (p : List Byte) (k : EntryKind) (s : Nat)
    (hp : p.length ≤ 100) :
    ((tarHeader p k s).drop 132).headD 0 = typeFlagByte k := by
  have hgr : tarHeader p k s =
      (((p ++ List.replicate (100 - p.length) 0) ++ (toOctal 7 420 ++ [0]))
        ++ (toOctal 11 s ++ [0] ++ (toOctal 11 0 ++ [0])))
      ++ ([typeFlagByte k] ++ List.replicate 379 0) := by
    simp [tarHeader]
  rw [hgr]
  rw [List.drop_left' (by simp [toOctal_length]; omega)]
  rfl

theorem tarHeader_name (p : List Byte) (k : EntryKind) (s : Nat)
    (hp : p.length ≤ 100) (h0 : 0 ∉ p) :
    ((tarHeader p k s).take 100).takeWhile (fun b => b != 0) = p := by
  have hgr : tarHeader p k s =
      (p ++ List.replicate (100 - p.length) 0)
      ++ ((toOctal 7 420 ++ [0]) ++ (toOctal 11 s ++ [0] ++ (toOctal 11 0 ++ [0])
        ++ ([typeFlagByte k] ++ List.replicate 379 0))) := by
    simp [tarHeader]
  rw [hgr, List.take_left' (by simp; omega)]
  exact takeWhile_append_zeros p h0 _

theorem tarDecodeLoop_cons (fuel : Nat) (p : List Byte) (k : EntryKind)
    (c rest : List Byte) (hp : p.length ≤ 100) (h0 : 0 ∉ p)
    (hs : c.length < 8 ^ 11) :
    tarDecodeLoop (fuel + 1)
      (tarHeader p k c.length ++
        ((c ++ List.replicate (padLen c.length) 0) ++ rest))
      = (tarDecodeLoop fuel rest).map (fun es => ⟨p, k, c⟩ :: es) := by
  have hH := tarHeader_length p k c.length hp
  have hlen512 : ¬ (tarHeader p k c.length ++
      ((c ++ List.replicate (padLen c.length) 0) ++ rest)).length < 512 := by
    simp [hH]
  simp only [tarDecodeLoop, if_neg hlen512]
  rw [List.take_left' hH, List.drop_left' hH]
  rw [tarHeader_not_all_zero]
  simp only [Bool.false_eq_true, if_false]
  rw [tarHeader_drop132 p k c.length hp, kindOfByte_typeFlag]
  rw [tarHeader_name p k c.length hp h0]
  rw [tarHeader_drop108 p k c.length hp, fromOctal_toOctal 11 c.length hs]
  have hXlen : (((c ++ List.replicate (padLen c.length) 0) ++ rest).length
      < c.length + padLen c.length) ↔ False := by
    simp only [List.length_append, List.length_replicate, iff_false, not_lt]
    omega
  have htakeC : ((c ++ List.replicate (padLen c.length) 0) ++ rest).take
      c.length = c := by
    rw [List.append_assoc]
    exact List.take_left' rfl
  have hdropC : ((c ++ List.replicate (padLen c.length) 0) ++ rest).drop
      (c.length + padLen c.length) = rest :=
    List.drop_left' (by simp)
  simp only [hXlen, if_false, htakeC, hdropC]
  cases tarDecodeLoop fuel rest <;> rfl

theorem tarEntryBytes_error (e : FileEntry) (err : ArchiveError)
    (h : tarEntryBytes e = .error err) : err = .sizeMismatch := by
  by_cases hc : e.content.length ≠ e.size
  · simp [tarEntryBytes, hc] at h
    exact h.symm
  · simp [tarEntryBytes, hc] at h

theorem tarEntriesBytes_mismatch (es : List FileEntry) (e : FileEntry)
    (hmem : e ∈ es) (hne : e.content.length ≠ e.size) :
    tarEntriesBytes es = .error .sizeMismatch := by
  induction es with
  | nil => simp at hmem
  | cons a as ih =>
    rcases List.mem_cons.1 hmem with rfl | hmem2
    · simp [tarEntriesBytes, tarEntryBytes, hne, ebind_err]
    · rcases ha : tarEntryBytes a with err | b
      · rw [tarEntryBytes_error a err ha] at ha
        simp [tarEntriesBytes, ha, ebind_err]
      · simp [tarEntriesBytes, ha, ebind_ok, ih hmem2, ebind_err]

theorem tarEntriesBytes_ok (es : List FileEntry)
    (h : ∀ e ∈ es, e.content.length = e.size) :
    ∃ b, tarEntriesBytes es = .ok b := by
  induction es with
  | nil => exact ⟨[], rfl⟩
  | cons a as ih =>
    obtain ⟨tb, htb⟩ := ih (fun x hx => h x (by simp [hx]))
    have ha : tarEntryBytes a = .ok (tarHeader (FileEntry.archivePath a)
        a.kind a.size ++ (a.content ++ List.replicate (padLen a.size) 0)) := by
      simp [tarEntryBytes, h a (by simp)]
    exact ⟨tarHeader (FileEntry.archivePath a) a.kind a.size
      ++ (a.content ++ List.replicate (padLen a.size) 0) ++ tb,
      by simp only [tarEntriesBytes, ha, htb, ebind_ok]⟩

theorem tarEntriesBytes_length (es : List FileEntry) (bytes : List Byte)
    (h : tarEntriesBytes es = .ok bytes) : es.length ≤ bytes.length := by
  induction es generalizing bytes with
  | nil => simp [tarEntriesBytes] at h; simp [← h]
  | cons a as ih =>
    rcases ha : tarEntryBytes a with err | b
    · simp [tarEntriesBytes, ha, ebind_err] at h
    · rcases ht : tarEntriesBytes as with err | tb
      · simp [tarEntriesBytes, ha, ht, ebind_ok, ebind_err] at h
      · simp [tarEntriesBytes, ha, ht, ebind_ok] at h
        have hb : 1 ≤ b.length := by
          by_cases hc : a.content.length ≠ a.size
          · simp [tarEntryBytes, hc] at ha
          · simp [tarEntryBytes, hc] at ha
            rw [← ha]
            simp [tarHeader, toOctal_length]
            omega
        have := ih tb ht
        simp [← h]
        omega

theorem tarEntries_decode (es : List FileEntry) :
    ∀ bytes fuel,
    (∀ e ∈ es, (FileEntry.archivePath e).length ≤ 100 ∧
      0 ∉ FileEntry.archivePath e ∧ e.size = e.content.length ∧
      e.size < 8 ^ 11) →
    tarEntriesBytes es = .ok bytes → es.length + 1 ≤ fuel →
    tarDecodeLoop fuel (bytes ++ endOfArchive) = some (es.map toRaw) := by
  induction es with
  | nil =>
    intro bytes fuel _ h hf
    simp [tarEntriesBytes] at h
    obtain ⟨f, rfl⟩ : ∃ f, fuel = f + 1 := ⟨fuel - 1, by omega⟩
    subst h
    simpa using tarDecodeLoop_end f
  | cons e es ih =>
    intro bytes fuel hwf h hf
    obtain ⟨hp, h0, hsz, hbound⟩ := hwf e (by simp)
    have hmk : tarEntryBytes e = .ok (tarHeader (FileEntry.archivePath e)
        e.kind e.size ++ (e.content ++ List.replicate (padLen e.size) 0)) := by
      simp [tarEntryBytes, hsz]
    rcases ht : tarEntriesBytes es with err | tb
    · simp [tarEntriesBytes, hmk, ht, ebind_ok, ebind_err] at h
    · simp [tarEntriesBytes, hmk, ht, ebind_ok] at h
      obtain ⟨f, rfl⟩ : ∃ f, fuel = f + 1 := ⟨fuel - 1, by omega⟩
      subst h
      have hassoc : tarHeader (FileEntry.archivePath e) e.kind e.size
            ++ (e.content ++ (List.replicate (padLen e.size) 0 ++ tb))
            ++ endOfArchive
          = tarHeader (FileEntry.archivePath e) e.kind e.content.length
            ++ ((e.content ++ List.replicate (padLen e.content.length) 0)
              ++ (tb ++ endOfArchive)) := by
        rw [hsz]
        simp [List.append_assoc]
      rw [hassoc]
      rw [tarDecodeLoop_cons f (FileEntry.archivePath e) e.kind e.content
        (tb ++ endOfArchive) hp h0 (hsz ▸ hbound)]
      rw [ih tb f (fun x hx => hwf x (by simp [hx])) ht
        (by simp only [List.length_cons] at hf; omega)]
      rfl

/-- C7: a tar stream the encoder completes ends with the end-of-archive
marker of exactly two zero-filled 512-byte blocks appended after the entry
records, and any entry whose bytes read differ from its declared size makes
the encoder fail with `ArchiveError.sizeMismatch` instead of emitting a
complete-looking archive. -/
theorem C7_tar_end_marker_and_size_mismatch :
    (∀ es bytes, tarEncode es = .ok bytes →
      ∃ body, tarEntriesBytes es = .ok body ∧
        bytes = body ++ (List.replicate 512 0 ++ List.replicate 512 0))
    ∧ (∀ es (e : FileEntry), e ∈ es → e.content.length ≠ e.size →
      tarEncode es = .error .sizeMismatch) := by
  constructor
  · intro es bytes h
    rcases hb : tarEntriesBytes es with err | body
    · simp [tarEncode, hb, ebind_err] at h
    · simp [tarEncode, hb, ebind_ok] at h
      refine ⟨body, rfl, ?_⟩
      rw [← h]
      simp [endOfArchive]
  · intro es e hmem hne
    simp [tarEncode, tarEntriesBytes_mismatch es e hmem hne, ebind_err]

/-- Witness for C7: the empty stream is marker-terminated, and a declared
size of 5 with one byte read fails with a size mismatch. -/
theorem C7_tar_end_marker_and_size_mismatch_witness :
    (∃ body, tarEntriesBytes [] = .ok body ∧
      ([] : List Byte) ++ endOfArchive =
        body ++ (List.replicate 512 0 ++ List.replicate 512 0))
    ∧ tarEncode [⟨[[97]], .file, 5, [1]⟩] = .error .sizeMismatch :=
  ⟨C7_tar_end_marker_and_size_mismatch.1 [] ([] ++ endOfArchive) rfl,
    C7_tar_end_marker_and_size_mismatch.2 [⟨[[97]], .file, 5, [1]⟩]
      ⟨[[97]], .file, 5, [1]⟩ (by simp) (by decide)⟩

theorem leBytes_length (w n : Nat) : (leBytes w n).length = w := by
  induction w generalizing n with
  | zero => rfl
  | succ w ih => simp [leBytes, ih]

theorem fromLe_leBytes (w n : Nat) (h : n < 256 ^ w) :
    fromLe (leBytes w n) = n := by
  induction w generalizing n with
  | zero =>
    interval_cases n
    rfl
  | succ w ih =>
    have hdiv : n / 256 < 256 ^ w := by
      rw [Nat.div_lt_iff_lt_mul (by norm_num)]
      calc n < 256 ^ (w + 1) := h
      _ = 256 ^ w * 256 := by ring
    simp only [leBytes, fromLe, List.foldr_cons]
    have hrec : List.foldr (fun b acc => b + 256 * acc) 0 (leBytes w (n / 256))
        = n / 256 := ih (n / 256) hdiv
    rw [show List.foldr (fun b acc => b + 256 * acc) 0 (leBytes w (n / 256))
      = fromLe (leBytes w (n / 256)) from rfl, ih (n / 256) hdiv]
    omega

theorem zipLocalEntry_length (name content : List Byte) :
    (zipLocalEntry name content).length = 24 + name.length + content.length := by
  simp [zipLocalEntry, leBytes_length]
  omega

theorem zipCentralRecord_length (name : List Byte) (k : EntryKind)
    (content : List Byte) (off : Nat) :
    (zipCentralRecord name k content off).length = 19 + name.length := by
  simp [zipCentralRecord, leBytes_length]
  omega

theorem zipBuild_cons (off : Nat) (e : FileEntry) (rest : List FileEntry) :
    zipBuild off (e :: rest) =
      (zipLocalEntry (FileEntry.archivePath e) e.content
        ++ (zipBuild (off + (zipLocalEntry (FileEntry.archivePath e)
          e.content).length) rest).1,
       zipCentralRecord (FileEntry.archivePath e) e.kind e.content off
        ++ (zipBuild (off + (zipLocalEntry (FileEntry.archivePath e)
          e.content).length) rest).2) := by
  simp [zipBuild]

theorem zipBuild_central_length (off : Nat) (es : List FileEntry) :
    es.length ≤ (zipBuild off es).2.length := by
  induction es generalizing off with
  | nil => simp [zipBuild]
  | cons e rest ih =>
    rw [zipBuild_cons]
    simp only [List.length_cons, List.length_append, zipCentralRecord_length]
    have := ih (off + (zipLocalEntry (FileEntry.archivePath e) e.content).length)
    omega

theorem zipReadCentral_cons (f : Nat) (bs name : List Byte) (k : EntryKind)
    (content : List Byte) (off : Nat) (cds : List Byte)
    (hn : name.length < 2 ^ 16) (hc : content.length < 2 ^ 32)
    (hoff : off < 2 ^ 32)
    (hcontent : (bs.drop (off + 8 + name.length)).take content.length
      = content) :
    zipReadCentral (f + 1) bs (zipCentralRecord name k content off ++ cds)
      = (zipReadCentral f bs cds).map
          (fun es => ⟨name, k, content⟩ :: es) := by
  have hcons : ∃ b tl, zipCentralRecord name k content off ++ cds = b :: tl :=
    ⟨80, _, rfl⟩
  obtain ⟨b, tl, hbt⟩ := hcons
  have h4 : (zipCentralRecord name k content off ++ cds).take 4
      = [80, 75, 1, 2] := by
    rw [zipCentralRecord, List.append_assoc]
    exact List.take_left' rfl
  have hkb : ((zipCentralRecord name k content off ++ cds).drop 4).headD 0
      = typeFlagByte k := by
    rw [zipCentralRecord, List.append_assoc]
    rw [List.drop_left' (by rfl)]
    rfl
  have hsize : ((zipCentralRecord name k content off ++ cds).drop 9).take 4
      = leBytes 4 content.length := by
    have hgr : zipCentralRecord name k content off ++ cds
        = ([80, 75, 1, 2] ++ ([typeFlagByte k] ++ leBytes 4 (crc32 content)))
          ++ (leBytes 4 content.length ++ ((leBytes 2 name.length
            ++ (leBytes 4 off ++ name)) ++ cds)) := by
      simp [zipCentralRecord]
    rw [hgr, List.drop_left' (by simp [leBytes_length])]
    exact List.take_left' (leBytes_length 4 _)
  have hnlen : ((zipCentralRecord name k content off ++ cds).drop 13).take 2
      = leBytes 2 name.length := by
    have hgr : zipCentralRecord name k content off ++ cds
        = ([80, 75, 1, 2] ++ ([typeFlagByte k] ++ (leBytes 4 (crc32 content)
            ++ leBytes 4 content.length)))
          ++ (leBytes 2 name.length ++ ((leBytes 4 off ++ name) ++ cds)) := by
      simp [zipCentralRecord]
    rw [hgr, List.drop_left' (by simp [leBytes_length])]
    exact List.take_left' (leBytes_length 2 _)
  have hoff4 : ((zipCentralRecord name k content off ++ cds).drop 15).take 4
      = leBytes 4 off := by
    have hgr : zipCentralRecord name k content off ++ cds
        = ([80, 75, 1, 2] ++ ([typeFlagByte k] ++ (leBytes 4 (crc32 content)
            ++ (leBytes 4 content.length ++ leBytes 2 name.length))))
          ++ (leBytes 4 off ++ (name ++ cds)) := by
      simp [zipCentralRecord]
    rw [hgr, List.drop_left' (by simp [leBytes_length])]
    exact List.take_left' (leBytes_length 4 _)
  have hname : ((zipCentralRecord name k content off ++ cds).drop 19).take
      name.length = name := by
    have hgr : zipCentralRecord name k content off ++ cds
        = ([80, 75, 1, 2] ++ ([typeFlagByte k] ++ (leBytes 4 (crc32 content)
            ++ (leBytes 4 content.length ++ (leBytes 2 name.length
              ++ leBytes 4 off)))))
          ++ (name ++ cds) := by
      simp [zipCentralRecord]
    rw [hgr, List.drop_left' (by simp [leBytes_length])]
    exact List.take_left' rfl
  have hrest : (zipCentralRecord name k content off ++ cds).drop
      (19 + name.length) = cds := by
    refine List.drop_left' ?_
    rw [zipCentralRecord_length]
  rw [hbt]
  simp only [zipReadCentral]
  rw [← hbt]
  rw [if_pos h4]
  rw [hkb, hsize, hnlen, hoff4]
  rw [fromLe_leBytes 4 content.length hc, fromLe_leBytes 2 name.length hn,
    fromLe_leBytes 4 off hoff]
  rw [hname, hrest, kindOfByte_typeFlag, hcontent]
  cases zipReadCentral f bs cds <;> rfl

theorem zipLocalHeader_length (name content : List Byte) :
    zipLocalEntry name content
      = ([80, 75, 3, 4] ++ ([8, 0] ++ (leBytes 2 name.length ++ name)))
        ++ (content ++ ([80, 75, 7, 8] ++ (leBytes 4 (crc32 content)
          ++ (leBytes 4 content.length ++ leBytes 4 content.length)))) := rfl

theorem zipBuild_decode (es : List FileEntry) :
    ∀ (P S : List Byte) (fuel : Nat),
    (∀ e ∈ es, (FileEntry.archivePath e).length < 2 ^ 16 ∧
      e.content.length < 2 ^ 32) →
    P.length + (zipBuild P.length es).1.length < 2 ^ 32 →
    es.length + 1 ≤ fuel →
    zipReadCentral fuel (P ++ ((zipBuild P.length es).1 ++ S))
      (zipBuild P.length es).2 = some (es.map toRaw) := by
  induction es with
  | nil =>
    intro P S fuel _ _ hf
    obtain ⟨f, rfl⟩ : ∃ f, fuel = f + 1 := ⟨fuel - 1, by omega⟩
    simp [zipBuild, zipReadCentral]
  | cons e rest ih =>
    intro P S fuel hwf hb hf
    obtain ⟨f, rfl⟩ : ∃ f, fuel = f + 1 := ⟨fuel - 1, by omega⟩
    obtain ⟨hn, hc⟩ := hwf e (by simp)
    rw [zipBuild_cons]
    simp only
    have hble : P.length + (zipBuild P.length (e :: rest)).1.length < 2 ^ 32 := hb
    rw [zipBuild_cons] at hble
    simp only [List.length_append] at hble
    have hoff : P.length < 2 ^ 32 := by omega
    have hcontent :
        (((P ++ ((zipLocalEntry (FileEntry.archivePath e) e.content
          ++ (zipBuild (P.length + (zipLocalEntry (FileEntry.archivePath e)
            e.content).length) rest).1) ++ S))).drop
          (P.length + 8 + (FileEntry.archivePath e).length)).take
          e.content.length = e.content := by
      have hgr : P ++ ((zipLocalEntry (FileEntry.archivePath e) e.content
          ++ (zipBuild (P.length + (zipLocalEntry (FileEntry.archivePath e)
            e.content).length) rest).1) ++ S)
          = (P ++ ([80, 75, 3, 4] ++ ([8, 0]
              ++ (leBytes 2 (FileEntry.archivePath e).length
                ++ FileEntry.archivePath e))))
            ++ (e.content ++ (([80, 75, 7, 8]
              ++ (leBytes 4 (crc32 e.content)
                ++ (leBytes 4 e.content.length ++ leBytes 4 e.content.length)))
              ++ ((zipBuild (P.length + (zipLocalEntry
                (FileEntry.archivePath e) e.content).length) rest).1 ++ S))) := by
        rw [zipLocalHeader_length]
        simp [List.append_assoc]
      rw [hgr]
      rw [List.drop_left' (by simp [leBytes_length]; omega)]
      exact List.take_left' rfl
    rw [zipReadCentral_cons f _ (FileEntry.archivePath e) e.kind e.content
      P.length _ hn hc hoff hcontent]
    have hstream : P ++ ((zipLocalEntry (FileEntry.archivePath e) e.content
        ++ (zipBuild (P.length + (zipLocalEntry (FileEntry.archivePath e)
          e.content).length) rest).1) ++ S)
        = (P ++ zipLocalEntry (FileEntry.archivePath e) e.content)
          ++ ((zipBuild ((P ++ zipLocalEntry (FileEntry.archivePath e)
            e.content)).length rest).1 ++ S) := by
      simp [List.append_assoc]
    rw [hstream]
    have hrw : (zipBuild (P.length + (zipLocalEntry (FileEntry.archivePath e)
        e.content).length) rest)
        = (zipBuild ((P ++ zipLocalEntry (FileEntry.archivePath e)
          e.content)).length rest) := by
      simp
    rw [hrw]
    rw [ih (P ++ zipLocalEntry (FileEntry.archivePath e) e.content) S f
      (fun x hx => hwf x (by simp [hx]))
      (by simp only [List.length_append]; omega)
      (by simp only [List.length_cons] at hf; omega)]
    rfl

theorem zipEocd_grouped (count cdOff cdLen : Nat) :
    zipEocd count cdOff cdLen
      = ([80, 75, 5, 6] ++ leBytes 2 count)
        ++ (leBytes 4 cdOff ++ leBytes 4 cdLen) := by
  simp [zipEocd]

theorem zipEocd_length (count cdOff cdLen : Nat) :
    (zipEocd count cdOff cdLen).length = 14 := by
  simp [zipEocd, leBytes_length]

theorem zipEncode_length (es : List FileEntry) :
    (zipEncode es).length
      = (zipBuild 0 es).1.length + ((zipBuild 0 es).2.length + 14) := by
  simp [zipEncode, zipEocd_length]

theorem zip_roundtrip (es : List FileEntry)
    (hwf : ∀ e ∈ es, (FileEntry.archivePath e).length < 2 ^ 16 ∧
      e.content.length < 2 ^ 32)
    (htot : (zipEncode es).length < 2 ^ 32) :
    zipDecode (zipEncode es) = some (es.map toRaw) := by
  have hlen := zipEncode_length es
  have h14 : ¬ (zipEncode es).length < 14 := by omega
  have harith : (zipEncode es).length - 14
      = (zipBuild 0 es).1.length + (zipBuild 0 es).2.length := by omega
  have hdropE : (zipEncode es).drop ((zipEncode es).length - 14)
      = zipEocd es.length (zipBuild 0 es).1.length (zipBuild 0 es).2.length := by
    rw [harith]
    have hgr : zipEncode es = ((zipBuild 0 es).1 ++ (zipBuild 0 es).2)
        ++ zipEocd es.length (zipBuild 0 es).1.length
          (zipBuild 0 es).2.length := by
      simp [zipEncode]
    rw [hgr]
    exact List.drop_left' (by simp)
  have hL : (zipBuild 0 es).1.length < 2 ^ 32 := by omega
  have hC : (zipBuild 0 es).2.length < 2 ^ 32 := by omega
  have heo4 : (zipEocd es.length (zipBuild 0 es).1.length
      (zipBuild 0 es).2.length).take 4 = [80, 75, 5, 6] := by
    rw [zipEocd]
    exact List.take_left' rfl
  have heo6 : ((zipEocd es.length (zipBuild 0 es).1.length
      (zipBuild 0 es).2.length).drop 6).take 4
      = leBytes 4 (zipBuild 0 es).1.length := by
    rw [zipEocd_grouped]
    rw [List.drop_left' (by simp [leBytes_length])]
    exact List.take_left' (leBytes_length 4 _)
  have heo10 : ((zipEocd es.length (zipBuild 0 es).1.length
      (zipBuild 0 es).2.length).drop 10).take 4
      = leBytes 4 (zipBuild 0 es).2.length := by
    have hgr : zipEocd es.length (zipBuild 0 es).1.length
        (zipBuild 0 es).2.length
        = (([80, 75, 5, 6] ++ leBytes 2 es.length)
          ++ leBytes 4 (zipBuild 0 es).1.length)
          ++ leBytes 4 (zipBuild 0 es).2.length := by
      simp [zipEocd]
    rw [hgr]
    rw [List.drop_left' (by simp [leBytes_length])]
    exact List.take_left' (leBytes_length 4 _)
  have hcds : ((zipEncode es).drop (zipBuild 0 es).1.length).take
      (zipBuild 0 es).2.length = (zipBuild 0 es).2 := by
    rw [zipEncode]
    rw [List.drop_left' rfl]
    exact List.take_left' rfl
  have hfuel : es.length + 1 ≤ (zipBuild 0 es).2.length + 1 := by
    have := zipBuild_central_length 0 es
    omega
  have hmain := zipBuild_decode es [] ((zipBuild 0 es).2
      ++ zipEocd es.length (zipBuild 0 es).1.length (zipBuild 0 es).2.length)
    ((zipBuild 0 es).2.length + 1) hwf (by simpa using hL) hfuel
  simp only [List.nil_append, List.length_nil] at hmain
  rw [zipDecode, if_neg h14]
  simp only [hdropE, heo4, if_pos, heo6, heo10]
  rw [fromLe_leBytes 4 _ hL, fromLe_leBytes 4 _ hC, hcds]
  rw [show zipEncode es = (zipBuild 0 es).1 ++ ((zipBuild 0 es).2
    ++ zipEocd es.length (zipBuild 0 es).1.length (zipBuild 0 es).2.length)
    from rfl]
  exact hmain

theorem collect_sizes (follow : Bool) (fuel : Nat) (root : FsNode)
    (es : List FileEntry) (hv : validRoot fuel root = true)
    (h : collectEntries follow fuel (some root) = .ok es) :
    ∀ e ∈ es, e.size = e.content.length := by
  intro e he
  cases root with
  | dir nm cs =>
    simp [validRoot, validListN] at hv
    have hperm := sortChildren_perm cs
    have hvall : ∀ c ∈ sortChildren cs, validTreeN fuel c = true :=
      fun c hc => hv.2 c (hperm.mem_iff.1 hc)
    have hnodup : ((sortChildren cs).map FsNode.name).Nodup :=
      ((hperm.map FsNode.name).nodup_iff).2 hv.1
    obtain ⟨hsh, _⟩ := (walk_shape_aux follow fuel).2 [] (sortChildren cs)
      es hvall hnodup h
    obtain ⟨c, _, q, _, _, hsz⟩ := hsh e he
    exact hsz
  | file nm c =>
    obtain ⟨hsh, _⟩ := (walk_shape_aux follow fuel).1 [] (.file nm c)
      es (by simpa [validRoot] using hv) h
    obtain ⟨q, _, _, hsz⟩ := hsh e he
    exact hsz
  | symlink nm tg =>
    obtain ⟨hsh, _⟩ := (walk_shape_aux follow fuel).1 [] (.symlink nm tg)
      es (by simpa [validRoot] using hv) h
    obtain ⟨q, _, _, hsz⟩ := hsh e he
    exact hsz

/-- C1: for every well-formed directory tree (of any file sizes, so in
particular sizes 0, 1, and beyond any buffer capacity), extracting the tar
or zip archive generated from the walked entries yields exactly the walked
relative paths, kinds, and byte contents — hence identical sizes. -/
theorem C1_archive_roundtrip (fmt : ArchiveFormat) (follow : Bool)
    (fuel : Nat) (root : FsNode) (es : List FileEntry)
    (hv : validRoot fuel root = true)
    (hwalk : collectEntries follow fuel (some root) = .ok es)
    (hlim : ∀ e ∈ es, (FileEntry.archivePath e).length ≤ 100 ∧
      0 ∉ FileEntry.archivePath e ∧ e.content.length < 2 ^ 32)
    (hz : (zipEncode es).length < 2 ^ 32) :
    ∃ bytes, generateArchive fmt es = .ok bytes ∧
      extractArchive fmt bytes = some (es.map toRaw) := by
  have hsz := collect_sizes follow fuel root es hv hwalk
  cases fmt with
  | tar =>
    obtain ⟨body, hbody⟩ :=
      tarEntriesBytes_ok es (fun e he => (hsz e he).symm)
    refine ⟨body ++ endOfArchive, ?_, ?_⟩
    · simp [generateArchive, tarEncode, hbody, ebind_ok]
    · have hpow : (2 : Nat) ^ 32 ≤ 8 ^ 11 := by norm_num
      have hdec := tarEntries_decode es body ((body ++ endOfArchive).length + 1)
        (fun e he => ⟨(hlim e he).1, (hlim e he).2.1, hsz e he,
          lt_of_lt_of_le (by rw [hsz e he]; exact (hlim e he).2.2) hpow⟩)
        hbody
        (by
          have := tarEntriesBytes_length es body hbody
          simp only [List.length_append]
          omega)
      simpa [extractArchive, tarDecode] using hdec
  | zip =>
    refine ⟨zipEncode es, rfl, ?_⟩
    have hpow : (100 : Nat) < 2 ^ 16 := by norm_num
    exact zip_roundtrip es
      (fun e he => ⟨lt_of_le_of_lt (hlim e he).1 hpow, (hlim e he).2.2⟩) hz

/-- Witness for C1: a directory with files of sizes 0, 1 and 3 (beyond a
2-byte bridge capacity), in tar format. -/
theorem C1_archive_roundtrip_witness :
    validRoot 4 (.dir [100] [.file [101] [], .file [102] [9],
        .file [103] [1, 2, 3]]) = true
    ∧ collectEntries false 4 (some (.dir [100] [.file [101] [],
        .file [102] [9], .file [103] [1, 2, 3]]))
      = .ok [⟨[[101]], .file, 0, []⟩, ⟨[[102]], .file, 1, [9]⟩,
          ⟨[[103]], .file, 3, [1, 2, 3]⟩]
    ∧ (∀ e ∈ [(⟨[[101]], .file, 0, []⟩ : FileEntry),
          ⟨[[102]], .file, 1, [9]⟩, ⟨[[103]], .file, 3, [1, 2, 3]⟩],
        (FileEntry.archivePath e).length ≤ 100 ∧
          0 ∉ FileEntry.archivePath e ∧ e.content.length < 2 ^ 32)
    ∧ (zipEncode [⟨[[101]], .file, 0, []⟩, ⟨[[102]], .file, 1, [9]⟩,
          ⟨[[103]], .file, 3, [1, 2, 3]⟩]).length < 2 ^ 32
    ∧ (∃ bytes, generateArchive .tar [⟨[[101]], .file, 0, []⟩,
          ⟨[[102]], .file, 1, [9]⟩, ⟨[[103]], .file, 3, [1, 2, 3]⟩]
        = .ok bytes ∧
        extractArchive .tar bytes
          = some ([(⟨[[101]], .file, 0, []⟩ : FileEntry),
              ⟨[[102]], .file, 1, [9]⟩,
              ⟨[[103]], .file, 3, [1, 2, 3]⟩].map toRaw)) :=
  ⟨by decide, by rfl, by decide, by decide,
    C1_archive_roundtrip .tar false 4
      (.dir [100] [.file [101] [], .file [102] [9], .file [103] [1, 2, 3]])
      _ (by decide) (by rfl) (by decide) (by decide)⟩

/-- C4: in every reachable bridge state the buffered bytes never exceed the
capacity; no step out of a closed state is an enqueue; and a set terminal
error survives every step unchanged. -/
theorem C4_pipe_invariants (cap : Nat) :
    (∀ s, PipeReachable cap s → s.bufferedBytes ≤ s.capacityBytes)
    ∧ (∀ s a t, PipeStep s a t → s.closed = true →
        ∀ size, a ≠ PipeAction.send size)
    ∧ (∀ s a t e, PipeStep s a t → s.terminalError = some e →
        t.terminalError = some e) := by
  refine ⟨?_, ?_, ?_⟩
  · intro s hs
    induction hs with
    | init => simp [initPipe]
    | step hr hstep ih =>
      cases hstep with
      | send size hopen hroom => simpa using hroom
      | receive size havail => simp; omega
      | closeNormal => simpa using ih
      | fail e hnone => simpa using ih
      | cancel => simpa using ih
  · intro s a t hstep hclosed size
    cases hstep with
    | send sz hopen hroom => rw [hopen] at hclosed; cases hclosed
    | receive sz havail => simp
    | closeNormal => simp
    | fail e hnone => simp
    | cancel => simp
  · intro s a t e hstep herr
    cases hstep with
    | send sz hopen hroom => simpa using herr
    | receive sz havail => simpa using herr
    | closeNormal => simpa using herr
    | fail e2 hnone => rw [hnone] at herr; cases herr
    | cancel => simpa using herr

/-- Witness for C4: the fresh 4-byte bridge, a close step out of a closed
state, and a cancel step from a failed state. -/
theorem C4_pipe_invariants_witness :
    (PipeReachable 4 (initPipe 4)
      ∧ (initPipe 4).bufferedBytes ≤ (initPipe 4).capacityBytes)
    ∧ (∀ size, PipeAction.closeNormal ≠ PipeAction.send size)
    ∧ (⟨4, 0, true, true, some .sizeMismatch⟩ : PipeState).terminalError
        = some .sizeMismatch :=
  ⟨⟨PipeReachable.init, (C4_pipe_invariants 4).1 (initPipe 4) PipeReachable.init⟩,
   (C4_pipe_invariants 4).2.1 ⟨4, 0, true, false, none⟩ .closeNormal
     ⟨4, 0, true, false, none⟩ (PipeStep.closeNormal _) rfl,
   (C4_pipe_invariants 4).2.2 ⟨4, 0, true, true, some .sizeMismatch⟩ .cancel
     ⟨4, 0, true, true, some .sizeMismatch⟩ .sizeMismatch
     (PipeStep.cancel _) rfl⟩

/-- C6: before any byte is sent, RootUnreadable surfaces as a 404/403-class
status and WalkTooDeep as a 400-class status; after streaming has started no
failure is translated to a status code — the connection is terminated. -/
theorem C6_error_surfacing :
    (∃ c, surfaceArchiveFailure 0 .rootUnreadable = .status c
      ∧ (c = 404 ∨ c = 403))
    ∧ (∃ c, surfaceArchiveFailure 0 .walkTooDeep = .status c
      ∧ 400 ≤ c ∧ c < 500)
    ∧ (∀ n e, 0 < n → surfaceArchiveFailure n e = .terminateConnection) := by
  refine ⟨⟨404, rfl, Or.inl rfl⟩, ⟨400, rfl, by omega⟩, ?_⟩
  intro n e hn
  simp [surfaceArchiveFailure, Nat.pos_iff_ne_zero.1 hn]

/-- Witness for C6: one byte already sent turns a size mismatch into
connection termination. -/
theorem C6_error_surfacing_witness :
    0 < 1 ∧ surfaceArchiveFailure 1 .sizeMismatch = .terminateConnection :=
  ⟨by decide, C6_error_surfacing.2.2 1 .sizeMismatch (by decide)⟩

/-! ### C5: deterministic output -/

theorem nameLe_refl (a : List Byte) : nameLe a a = true := by
  induction a with
  | nil => rfl
  | cons x xs ih => simp [nameLe, ih]

theorem nameLe_total (a b : List Byte) :
    nameLe a b = true ∨ nameLe b a = true := by
  induction a generalizing b with
  | nil => exact Or.inl rfl
  | cons x xs ih =>
    cases b with
    | nil => exact Or.inr rfl
    | cons y ys =>
      rcases Nat.lt_trichotomy x y with h | h | h
      · exact Or.inl (by simp [nameLe, h])
      · subst h
        rcases ih ys with h2 | h2
        · exact Or.inl (by simp [nameLe, h2])
        · exact Or.inr (by simp [nameLe, h2])
      · exact Or.inr (by simp [nameLe, h])

theorem nameLe_trans (a b c : List Byte) (hab : nameLe a b = true)
    (hbc : nameLe b c = true) : nameLe a c = true := by
  induction a generalizing b c with
  | nil => rfl
  | cons x xs ih =>
    cases b with
    | nil => simp [nameLe] at hab
    | cons y ys =>
      cases c with
      | nil => simp [nameLe] at hbc
      | cons z zs =>
        simp only [nameLe] at hab hbc ⊢
        rcases Nat.lt_trichotomy x y with hxy | hxy | hxy
        · rcases Nat.lt_trichotomy y z with hyz | hyz | hyz
          · simp [Nat.lt_trans hxy hyz]
          · subst hyz
            simp [hxy]
          · simp [Nat.lt_asymm hyz, hyz] at hbc
        · subst hxy
          simp [lt_self_iff_false] at hab
          rcases Nat.lt_trichotomy x z with hxz | hxz | hxz
          · simp [hxz]
          · subst hxz
            simp [lt_self_iff_false] at hbc ⊢
            exact ih ys zs hab hbc
          · simp [Nat.lt_asymm hxz, hxz] at hbc
        · simp [Nat.lt_asymm hxy, hxy] at hab

theorem nameLe_antisymm (a b : List Byte) (hab : nameLe a b = true)
    (hba : nameLe b a = true) : a = b := by
  induction a generalizing b with
  | nil =>
    cases b with
    | nil => rfl
    | cons y ys => simp [nameLe] at hba
  | cons x xs ih =>
    cases b with
    | nil => simp [nameLe] at hab
    | cons y ys =>
      simp only [nameLe] at hab hba
      rcases Nat.lt_trichotomy x y with h | h | h
      · simp [Nat.lt_asymm h, h] at hba
      · subst h
        simp [lt_self_iff_false] at hab hba
        rw [ih ys hab hba]
      · simp [Nat.lt_asymm h, h] at hab

theorem sorted_perm_nodup_eq :
    ∀ (l₁ l₂ : List FsNode), List.Perm l₁ l₂ →
      l₁.Sorted (fun a b => nameLe a.name b.name = true) →
      l₂.Sorted (fun a b => nameLe a.name b.name = true) →
      (l₁.map FsNode.name).Nodup → l₁ = l₂ := by
  intro l₁
  induction l₁ with
  | nil =>
    intro l₂ hperm _ _ _
    exact (hperm.nil_eq).symm ▸ rfl
  | cons a t₁ ih =>
    intro l₂ hperm hs₁ hs₂ hnd
    cases l₂ with
    | nil => exact absurd hperm.symm.nil_eq (by simp)
    | cons b t₂ =>
      have hb1 : b ∈ a :: t₁ := hperm.mem_iff.2 (by simp)
      have hab : nameLe a.name b.name = true := by
        rcases List.mem_cons.1 hb1 with rfl | hb
        · exact nameLe_refl _
        · exact (List.pairwise_cons.1 hs₁).1 b hb
      have ha2 : a ∈ b :: t₂ := hperm.mem_iff.1 (by simp)
      have hba : nameLe b.name a.name = true := by
        rcases List.mem_cons.1 ha2 with he | ha
        · rw [he]
          exact nameLe_refl _
        · exact (List.pairwise_cons.1 hs₂).1 a ha
      have hnames : a.name = b.name := nameLe_antisymm _ _ hab hba
      have hba2 : b = a := by
        rcases List.mem_cons.1 hb1 with rfl | hb
        · rfl
        · exfalso
          simp only [List.map_cons, List.nodup_cons] at hnd
          exact hnd.1 (hnames ▸ List.mem_map_of_mem FsNode.name hb)
      subst hba2
      have hperm2 : List.Perm t₁ t₂ := (List.perm_cons b).1 hperm
      simp only [List.map_cons, List.nodup_cons] at hnd
      rw [ih t₂ hperm2 (List.pairwise_cons.1 hs₁).2
        (List.pairwise_cons.1 hs₂).2 hnd.2]

theorem sortChildren_eq_of_perm (cs cs' : List FsNode)
    (hperm : List.Perm cs' cs) ( hnodup : (cs.map FsNode.name).Nodup) :
    sortChildren cs' = sortChildren cs := by
  haveI : IsTotal FsNode (fun a b => nameLe a.name b.name = true) :=
    ⟨fun a b => nameLe_total a.name b.name⟩
  haveI : IsTrans FsNode (fun a b => nameLe a.name b.name = true) :=
    ⟨fun a b c => nameLe_trans a.name b.name c.name⟩
  have hp : List.Perm (sortChildren cs') (sortChildren cs) :=
    ((sortChildren_perm cs').trans hperm).trans (sortChildren_perm cs).symm
  have hs1 : (sortChildren cs').Sorted
      (fun a b => nameLe a.name b.name = true) :=
    List.sorted_insertionSort _ cs'
  have hs2 : (sortChildren cs).Sorted
      (fun a b => nameLe a.name b.name = true) :=
    List.sorted_insertionSort _ cs
  have hnd : ((sortChildren cs').map FsNode.name).Nodup :=
    (((sortChildren_perm cs').map FsNode.name).nodup_iff).2
      ((hperm.map FsNode.name).nodup_iff.2 hnodup)
  exact sorted_perm_nodup_eq _ _ hp hs1 hs2 hnd

/-- C5: archive generation is deterministic — a second run over the same
unmodified tree is byte-identical, and the stream does not depend on the
order in which a directory listing is read: any permutation of a listing
with distinct names produces the same entries, hence the same bytes. -/
theorem C5_deterministic_output (fmt : ArchiveFormat) (follow : Bool)
    (fuel : Nat) (root : Option FsNode) :
    archiveRequestRun fmt follow fuel root
      = archiveRequestRun fmt follow fuel root
    ∧ (∀ n cs cs', List.Perm cs' cs → (cs.map FsNode.name).Nodup →
        archiveRequestRun fmt follow fuel (some (.dir n cs'))
          = archiveRequestRun fmt follow fuel (some (.dir n cs))) := by
  refine ⟨rfl, ?_⟩
  intro n cs cs' hperm hnodup
  simp only [archiveRequestRun, collectEntries]
  rw [sortChildren_eq_of_perm cs cs' hperm hnodup]

/-- Witness for C5: swapping two root entries does not change the stream. -/
theorem C5_deterministic_output_witness :
    List.Perm [FsNode.file [98] [7], FsNode.file [97] [5]]
      [FsNode.file [97] [5], FsNode.file [98] [7]]
    ∧ ([FsNode.file [97] [5], FsNode.file [98] [7]].map FsNode.name).Nodup
    ∧ archiveRequestRun .tar false 3
        (some (.dir [100] [FsNode.file [98] [7], FsNode.file [97] [5]]))
      = archiveRequestRun .tar false 3
        (some (.dir [100] [FsNode.file [97] [5], FsNode.file [98] [7]])) :=
  ⟨List.Perm.swap _ _ _, by decide,
    (C5_deterministic_output .tar false 3 none).2 [100]
      [FsNode.file [97] [5], FsNode.file [98] [7]]
      [FsNode.file [98] [7], FsNode.file [97] [5]]
      (List.Perm.swap _ _ _) (by decide)⟩

/-- C8: basic-authentication middleware is applied to every request exactly
when the configured auth list is non-empty — each handler then sees a
credential-checked request — and with an empty auth list the middleware is
skipped, so no credential verification happens on any request. -/
theorem C8_basic_auth_condition :
    (∀ (conf : MsConfig), conf.auth ≠ [] → ∀ (handler : Req → Nat) (r : Req),
      runApp conf handler r = handler (httpAuthenticationBasic r))
    ∧ (∀ (conf : MsConfig), conf.auth = [] → ∀ (handler : Req → Nat) (r : Req),
      runApp conf handler r = handler r
        ∧ (appMiddleware conf r).credentialsVerified
            = r.credentialsVerified) := by
  constructor
  · intro conf hne handler r
    simp [runApp, appMiddleware, conditionWrap,
      List.isEmpty_iff.not.2 hne]
  · intro conf he handler r
    simp [runApp, appMiddleware, conditionWrap, he]

/-- Witness for C8: one config with a credential entry, one without. -/
theorem C8_basic_auth_condition_witness :
    (([3] : List RequiredAuth) ≠ []
      ∧ runApp ⟨false, [3], none, "f", false, none, 0⟩
          (fun r : Req => r.credentialsVerified.toNat) ⟨false⟩
        = (httpAuthenticationBasic ⟨false⟩).credentialsVerified.toNat)
    ∧ (([] : List RequiredAuth) = []
      ∧ (runApp ⟨false, [], none, "f", false, none, 0⟩
          (fun r : Req => r.credentialsVerified.toNat) ⟨false⟩
        = (fun r : Req => r.credentialsVerified.toNat) ⟨false⟩
        ∧ (appMiddleware ⟨false, [], none, "f", false, none, 0⟩
            ⟨false⟩).credentialsVerified = Req.credentialsVerified ⟨false⟩)) :=
  ⟨⟨by decide, C8_basic_auth_condition.1 ⟨false, [3], none, "f", false, none, 0⟩
      (by decide) (fun r => r.credentialsVerified.toNat) ⟨false⟩⟩,
   ⟨rfl, C8_basic_auth_condition.2 ⟨false, [], none, "f", false, none, 0⟩
      rfl (fun r => r.credentialsVerified.toNat) ⟨false⟩⟩⟩

/-- C9: when the served path is a regular file, `configure_app` registers
exactly the single-file handler at the root route — no directory listing,
no index service, and no upload route, even with `file_upload` enabled. -/
theorem C9_single_file_routes (conf : MsConfig)
    (h : conf.pathIsFile = true) :
    configure_app conf = [.singleFile (fullRoute conf)]
    ∧ (∀ r, RegisteredService.uploadResource r ∉ configure_app conf)
    ∧ (∀ r, RegisteredService.filesListing r ∉ configure_app conf)
    ∧ (∀ r i, RegisteredService.filesIndex r i ∉ configure_app conf) := by
  have hc : configure_app conf = [.singleFile (fullRoute conf)] := by
    simp [configure_app, h]
  refine ⟨hc, ?_, ?_, ?_⟩ <;> intro r <;> simp [hc]

/-- Witness for C9: a file config with upload enabled and an index
configured still yields only the single-file handler. -/
theorem C9_single_file_routes_witness :
    (⟨true, [], some "r", "f", true, some "index.html", 0⟩
        : MsConfig).pathIsFile = true
    ∧ (configure_app ⟨true, [], some "r", "f", true, some "index.html", 0⟩
        = [.singleFile (fullRoute
            ⟨true, [], some "r", "f", true, some "index.html", 0⟩)]
      ∧ (∀ r, RegisteredService.uploadResource r
          ∉ configure_app ⟨true, [], some "r", "f", true, some "index.html", 0⟩)
      ∧ (∀ r, RegisteredService.filesListing r
          ∉ configure_app ⟨true, [], some "r", "f", true, some "index.html", 0⟩)
      ∧ (∀ r i, RegisteredService.filesIndex r i
          ∉ configure_app
            ⟨true, [], some "r", "f", true, some "index.html", 0⟩)) :=
  ⟨rfl, C9_single_file_routes
    ⟨true, [], some "r", "f", true, some "index.html", 0⟩ rfl⟩

/-- C10: every GET request matching no configured route is answered with
status 404 and an error page rendered with the color scheme taken from the
request's query parameters, defaulting to the configured scheme. -/
theorem C10_unmatched_get_404 (conf : MsConfig) (req : HttpReq)
    (hmatch : routeMatches conf req = false)
    (hget : req.method = HttpMethod.get) :
    dispatch conf req = some (error_404 conf req)
    ∧ (error_404 conf req).status = 404
    ∧ (error_404 conf req).page.statusCode = 404
    ∧ (error_404 conf req).page.colorScheme
        = req.queryTheme.getD conf.defaultColorScheme := by
  refine ⟨?_, rfl, rfl, rfl⟩
  simp [dispatch, hmatch, hget]

/-- Witness for C10: a GET to an unrouted path with a theme query
parameter. -/
theorem C10_unmatched_get_404_witness :
    routeMatches ⟨false, [], some "secret", "fav", false, none, 1⟩
        ⟨.get, "/nope", some 2, none, none⟩ = false
    ∧ (⟨.get, "/nope", some 2, none, none⟩ : HttpReq).method = HttpMethod.get
    ∧ (dispatch ⟨false, [], some "secret", "fav", false, none, 1⟩
          ⟨.get, "/nope", some 2, none, none⟩
        = some (error_404 ⟨false, [], some "secret", "fav", false, none, 1⟩
            ⟨.get, "/nope", some 2, none, none⟩)
      ∧ (error_404 ⟨false, [], some "secret", "fav", false, none, 1⟩
          ⟨.get, "/nope", some 2, none, none⟩).status = 404
      ∧ (error_404 ⟨false, [], some "secret", "fav", false, none, 1⟩
          ⟨.get, "/nope", some 2, none, none⟩).page.statusCode = 404
      ∧ (error_404 ⟨false, [], some "secret", "fav", false, none, 1⟩
          ⟨.get, "/nope", some 2, none, none⟩).page.colorScheme
        = (⟨.get, "/nope", some 2, none, none⟩
            : HttpReq).queryTheme.getD 1) :=
  ⟨by decide, rfl,
    C10_unmatched_get_404 ⟨false, [], some "secret", "fav", false, none, 1⟩
      ⟨.get, "/nope", some 2, none, none⟩ (by decide) rfl⟩

end Miniserve
